import Mathlib

/-!
Shallow embedding of `python_aws_ssm/parameters.py` (PaddleHQ/python-aws-ssm).

Python strings are modelled as lists of characters (`Str`).  Python
dictionaries are modelled as association lists with unique keys, built only
through `dictInsert`, which mirrors Python assignment semantics: an existing
key keeps its position and receives the new value, a new key is appended.
The remote collaborator (the boto3 `ssm` client) is modelled by passing the
data of its response as explicit arguments, and raised exceptions are
modelled with `Except`.
-/

namespace Ssm

/-- Python `str`, as a list of characters. -/
abbrev Str := List Char

/-- Python `key in dict` on an association-list dictionary. -/
def isKey {α : Type} : List (Str × α) → Str → Bool
  | [], _ => false
  | p :: rest, k => if p.1 = k then true else isKey rest k

/-- Python `dict[key]` / `dict.get(key)`, as an `Option`. -/
def lookupV {α : Type} : List (Str × α) → Str → Option α
  | [], _ => none
  | p :: rest, k => if p.1 = k then some p.2 else lookupV rest k

/-- Python `dict[key] = value`: an existing key keeps its position and gets
the new value, a new key is appended at the end. -/
def dictInsert {α : Type} (d : List (Str × α)) (k : Str) (v : α) : List (Str × α) :=
  if isKey d k then d.map (fun p => if p.1 = k then (k, v) else p) else d ++ [(k, v)]

/-- Python `s.lstrip("/")`: drop every leading slash. -/
def lstripSlash : Str → Str
  | [] => []
  | c :: rest => if c = '/' then lstripSlash rest else c :: rest

/-- Python `s.split(sep)` for a one-character separator: `""` splits to
`[""]`, a leading separator yields a leading empty segment. -/
def splitOn (sep : Char) : Str → List Str
  | [] => [[]]
  | c :: rest =>
    if c = sep then [] :: splitOn sep rest
    else
      match splitOn sep rest with
      | [] => [[c]]
      | s :: ss => (c :: s) :: ss

/-- Worker for `replaceAll`.  `skip` counts characters of an already matched
occurrence of the pattern that still have to be consumed without scanning. -/
def replaceAllGo (pat : Str) : Nat → Str → Str
  | _, [] => []
  | Nat.succ n, _ :: rest => replaceAllGo pat n rest
  | 0, c :: rest =>
    if pat ≠ [] ∧ pat.isPrefixOf (c :: rest) then replaceAllGo pat (pat.length - 1) rest
    else c :: replaceAllGo pat 0 rest

/-- Python `s.replace(pat, "")`: remove every non-overlapping occurrence of
`pat`, scanning left to right; with an empty pattern nothing changes. -/
def replaceAll (pat s : Str) : Str := replaceAllGo pat 0 s

/-- Modelled from the spec's words for claim C1: remove exactly the first
literal occurrence of `pat` and leave any later occurrence intact.  This is
the behaviour the claim attributes to the source; it is compared against
`replaceAll`, which is what the source's `str.replace` does. -/
def removeFirstOcc (pat : Str) : Str → Str
  | [] => []
  | c :: rest =>
    if pat ≠ [] ∧ pat.isPrefixOf (c :: rest) then (c :: rest).drop pat.length
    else c :: removeFirstOcc pat rest

/-- A value stored in a (possibly nested) Python dictionary of parameters:
`None`, a string, or a nested dictionary.  `Val.none` stands for the Python
`None` object, which the source uses both as an absent value and as a leaf
value. -/
inductive Val where
  | none : Val
  | str : Str → Val
  | dict : List (Str × Val) → Val

/-- Python `d.get(key)` on a tree node: `None` when the key is absent. -/
def getVal : List (Str × Val) → Str → Val
  | [], _ => .none
  | p :: rest, k => if p.1 = k then p.2 else getVal rest k

theorem getVal_sizeOf_le (d : List (Str × Val)) (k : Str) :
    sizeOf (getVal d k) ≤ sizeOf d := by
  induction d with
  | nil => simp [getVal]
  | cons p rest ih =>
    obtain ⟨a, b⟩ := p
    rw [getVal]
    split
    · simp only [List.cons.sizeOf_spec, Prod.mk.sizeOf_spec]
      omega
    · simp only [List.cons.sizeOf_spec, Prod.mk.sizeOf_spec]
      omega

/-- First-occurrence deduplication of a key list, with the keys already seen
accumulated in `seen`.  The iteration order of a Python `set` is arbitrary;
this fixes one concrete order (first appearance) for the executable model. -/
def dedupAux (seen : List Str) : List Str → List Str
  | [] => []
  | k :: ks => if k ∈ seen then dedupAux seen ks else k :: dedupAux (k :: seen) ks

/-- Python `set(a.keys()) | set(b.keys())` (in first-appearance order). -/
def keysUnion (da db : List (Str × Val)) : List Str :=
  dedupAux [] (da.map Prod.fst ++ db.map Prod.fst)

mutual

/-- `ParameterStore._deep_merge`: if either side is not a dictionary the
right side wins unless it is `None` (`a if b is None else b`); two
dictionaries merge key-wise over the union of their keys. -/
def deep_merge : Val → Val → Val
  | .dict da, .dict db => .dict (mergeKeys da db (keysUnion da db))
  | a, .none => a
  | _, b => b
termination_by a b => (sizeOf a + sizeOf b, 0)

/-- The dictionary comprehension inside `_deep_merge`, one key at a time. -/
def mergeKeys (da db : List (Str × Val)) : List Str → List (Str × Val)
  | [] => []
  | k :: ks => (k, deep_merge (getVal da k) (getVal db k)) :: mergeKeys da db ks
termination_by ks => (sizeOf da + sizeOf db + 1, sizeOf ks)
decreasing_by
· simp_wf
  apply Prod.Lex.left
  exact Nat.lt_succ_of_le (Nat.add_le_add (getVal_sizeOf_le _ _) (getVal_sizeOf_le _ _))
· simp_wf
  apply Prod.Lex.right
  omega

end

/-- The Python value stored for a parameter: a string or `None`. -/
def valOfOpt : Option Str → Val
  | Option.none => .none
  | Option.some s => .str s

/-- `ParameterStore._tree_dict` on the split key list: a single-branch
nested dictionary whose last segment maps to the value.  The source indexes
`key_list[-1]`, so an empty key list is impossible there (`splitOn` never
returns `[]`); the `[]` case here returns the bare value. -/
def tree_dict : List Str → Option Str → Val
  | [], v => valOfOpt v
  | k :: ks, v => .dict [(k, tree_dict ks v)]

/-- `ParameterStore._parse_parameters`: deep-merge the single-branch tree of
every `(suffix, value)` item into the accumulator, in dictionary order. -/
def parse_parameters (parameters : List (Str × Option Str)) : Val :=
  parameters.foldl (fun parsed kv => deep_merge parsed (tree_dict (splitOn '/' kv.1) kv.2))
    (.dict [])

/-- `ParameterStore._strip_leading_slashes`: rebuild the dictionary with
`lstrip("/")` applied to every key. -/
def strip_leading_slashes (parameters : List (Str × Option Str)) : List (Str × Option Str) :=
  parameters.foldl (fun d kv => dictInsert d (lstripSlash kv.1) kv.2) []

/-- `MissingParameterError`, with its structured fields. -/
structure MissingParameterError where
  parameter_names : List Str
  parameter_path : Str
deriving DecidableEq

/-- `InvalidParametersError`, with its structured field. -/
structure InvalidParametersError where
  invalid_parameters : List Str
deriving DecidableEq

/-- `ParameterStore._assert_required`.  The required set is modelled as a
list in the set's (arbitrary) iteration order.  Raises when any required
name is not a key of the actual dictionary. -/
def assert_required (required_parameters : List Str) (actual_parameters : List (Str × Option Str))
    (parameter_path : Str) : Except MissingParameterError Unit :=
  let missing_parameters := required_parameters.filter (fun n => ! isKey actual_parameters n)
  if missing_parameters = [] then .ok () else .error ⟨missing_parameters, parameter_path⟩

/-- The dictionary comprehension in `get_parameters_by_path`: map each
returned entry's name with `name.replace(ssm_base_path, "")` to its value.
Entries are `(Name, Value)` pairs of the collaborator response; a response
entry without a name would crash in the source and is not modelled. -/
def gpbpFlat (ssm_base_path : Str) (entries : List (Str × Option Str)) :
    List (Str × Option Str) :=
  entries.foldl (fun d e => dictInsert d (replaceAll ssm_base_path e.1) e.2) []

/-- The two possible shapes of a `get_parameters_by_path` result. -/
inductive GpbpResult where
  | flat : List (Str × Option Str) → GpbpResult
  | tree : Val → GpbpResult

/-- `ParameterStore.get_parameters_by_path`, with the collaborator's
response passed in as `entries`.  `required_parameters = []` models both an
absent and an empty required set (both falsy in the source's
`if required_parameters:`).  `with_decryption` only affects the remote
request and is omitted. -/
def get_parameters_by_path (ssm_base_path : Str) (recursive nested : Bool)
    (required_parameters : List Str) (entries : List (Str × Option Str)) :
    Except MissingParameterError GpbpResult :=
  let parameters := gpbpFlat ssm_base_path entries
  match (if required_parameters = [] then Except.ok ()
         else assert_required required_parameters parameters ssm_base_path) with
  | .error e => .error e
  | .ok _ =>
    .ok (if recursive && nested then .tree (parse_parameters parameters)
         else .flat (strip_leading_slashes parameters))

/-- The null-filling initialisation in `get_parameters`: every requested
name mapped to `None`. -/
def fillNone (ssm_key_names : List Str) : List (Str × Option Str) :=
  ssm_key_names.foldl (fun d n => dictInsert d n none) []

/-- The merge loop in `get_parameters`: a returned entry overwrites the
result only when its name is among the requested names; an entry without a
name (`retrieved.get("Name") = None`) is skipped. -/
def mergeRetrieved (ssm_key_names : List Str) (d : List (Str × Option Str))
    (retrieved_parameters : List (Option Str × Option Str)) : List (Str × Option Str) :=
  retrieved_parameters.foldl
    (fun d e =>
      match e.1 with
      | Option.some n => if n ∈ ssm_key_names then dictInsert d n e.2 else d
      | Option.none => d)
    d

/-- `ParameterStore.get_parameters`, with the collaborator's response passed
in as the invalid-name list and the returned entries.  An absent
`InvalidParameters` key is modelled by `[]` (both falsy in the source). -/
def get_parameters (ssm_key_names : List Str) (invalid_parameters : List Str)
    (retrieved_parameters : List (Option Str × Option Str)) :
    Except InvalidParametersError (List (Str × Option Str)) :=
  if invalid_parameters ≠ [] then .error ⟨invalid_parameters⟩
  else .ok (mergeRetrieved ssm_key_names (fillNone ssm_key_names) retrieved_parameters)

mutual

/-- Extensional equality of parameter trees: dictionaries are compared as
maps (the key order of a dictionary built from a Python `set` is an
arbitrary implementation detail), leaves are compared as values. -/
def veq : Val → Val → Bool
  | .dict a, .dict b => veqKeys a b (keysUnion a b)
  | .none, .none => true
  | .str s, .str t => decide (s = t)
  | _, _ => false
termination_by a b => (sizeOf a + sizeOf b, 0)

/-- Key-wise comparison used by `veq`. -/
def veqKeys (a b : List (Str × Val)) : List Str → Bool
  | [] => true
  | k :: ks => veq (getVal a k) (getVal b k) && veqKeys a b ks
termination_by ks => (sizeOf a + sizeOf b + 1, sizeOf ks)
decreasing_by
· simp_wf
  apply Prod.Lex.left
  exact Nat.lt_succ_of_le (Nat.add_le_add (getVal_sizeOf_le _ _) (getVal_sizeOf_le _ _))
· simp_wf
  apply Prod.Lex.right
  omega

end

/-- One split path is an initial segment of the other: the overlap that
makes the deep merge of the two single-branch trees order-sensitive. -/
def initialSegment (ks1 ks2 : List Str) : Prop := ∃ t, ks1 ++ t = ks2

/-! ### Association-list dictionary lemmas -/

theorem isKey_append {α : Type} (d1 d2 : List (Str × α)) (k : Str) :
    isKey (d1 ++ d2) k = (isKey d1 k || isKey d2 k) := by
  induction d1 with
  | nil => simp [isKey]
  | cons p rest ih => by_cases h : p.1 = k <;> simp [isKey, h, ih]

theorem isKey_mapReplace {α : Type} (d : List (Str × α)) (k : Str) (v : α) (k2 : Str) :
    isKey (d.map (fun p => if p.1 = k then (k, v) else p)) k2 = isKey d k2 := by
  induction d with
  | nil => simp [isKey]
  | cons p rest ih => by_cases h : p.1 = k <;> simp [isKey, h, ih]

theorem isKey_dictInsert {α : Type} (d : List (Str × α)) (k : Str) (v : α) (k2 : Str) :
    isKey (dictInsert d k v) k2 = true ↔ (isKey d k2 = true ∨ k2 = k) := by
  unfold dictInsert
  split
  · rename_i h
    rw [isKey_mapReplace]
    by_cases hk : k2 = k
    · subst hk; simp [h]
    · simp [hk]
  · rw [isKey_append]
    by_cases hk : k2 = k
    · subst hk; simp [isKey]
    · simp [isKey, hk, Ne.symm hk]

theorem lookupV_append_of_not_key {α : Type} (d1 d2 : List (Str × α)) (k : Str)
    (h : isKey d1 k = false) : lookupV (d1 ++ d2) k = lookupV d2 k := by
  induction d1 with
  | nil => simp
  | cons p rest ih =>
    rw [isKey] at h
    by_cases hp : p.1 = k
    · simp [hp] at h
    · simp only [List.cons_append, lookupV, if_neg hp]
      exact ih (by simpa [hp] using h)

theorem lookupV_mapReplace_self {α : Type} (d : List (Str × α)) (k : Str) (v : α)
    (h : isKey d k = true) :
    lookupV (d.map (fun p => if p.1 = k then (k, v) else p)) k = some v := by
  induction d with
  | nil => simp [isKey] at h
  | cons p rest ih =>
    by_cases hp : p.1 = k
    · simp [lookupV, hp]
    · rw [isKey, if_neg hp] at h
      simp only [List.map_cons, if_neg hp, lookupV]
      exact ih h

theorem lookupV_dictInsert_self {α : Type} (d : List (Str × α)) (k : Str) (v : α) :
    lookupV (dictInsert d k v) k = some v := by
  unfold dictInsert
  split
  · exact lookupV_mapReplace_self _ _ _ ‹_›
  · rename_i h
    simp only [Bool.not_eq_true] at h
    rw [lookupV_append_of_not_key _ _ _ h]
    simp [lookupV]

theorem lookupV_mapReplace_ne {α : Type} (d : List (Str × α)) (k : Str) (v : α) (k2 : Str)
    (hne : k2 ≠ k) :
    lookupV (d.map (fun p => if p.1 = k then (k, v) else p)) k2 = lookupV d k2 := by
  induction d with
  | nil => simp
  | cons p rest ih =>
    by_cases hp : p.1 = k
    · simp [lookupV, hp, Ne.symm hne, ih]
    · simp [lookupV, hp, ih]

theorem lookupV_append {α : Type} (d1 d2 : List (Str × α)) (k : Str) :
    lookupV (d1 ++ d2) k =
      (match lookupV d1 k with
       | Option.some v => Option.some v
       | Option.none => lookupV d2 k) := by
  induction d1 with
  | nil => simp [lookupV]
  | cons p rest ih => by_cases hp : p.1 = k <;> simp [lookupV, hp, ih]

theorem lookupV_dictInsert_ne {α : Type} (d : List (Str × α)) (k : Str) (v : α) (k2 : Str)
    (hne : k2 ≠ k) : lookupV (dictInsert d k v) k2 = lookupV d k2 := by
  unfold dictInsert
  split
  · exact lookupV_mapReplace_ne _ _ _ _ hne
  · rw [lookupV_append]
    cases h : lookupV d k2 <;> simp [lookupV, Ne.symm hne]

theorem mem_dictInsert {α : Type} (d : List (Str × α)) (k : Str) (v : α) (q : Str × α)
    (hq : q ∈ dictInsert d k v) : q ∈ d ∨ q.1 = k := by
  unfold dictInsert at hq
  split at hq
  · obtain ⟨p, hp, hpe⟩ := List.mem_map.1 hq
    by_cases h : p.1 = k
    · right; rw [← hpe]; simp [h]
    · left; rw [← hpe]; simpa [h] using hp
  · rcases List.mem_append.1 hq with h | h
    · left; exact h
    · right; simp at h; rw [h]

theorem mem_foldl_dictInsert {β α : Type} (f : β → Str) (g : β → α) (l : List β)
    (d0 : List (Str × α)) (q : Str × α)
    (hq : q ∈ l.foldl (fun d x => dictInsert d (f x) (g x)) d0) :
    q ∈ d0 ∨ ∃ x ∈ l, q.1 = f x := by
  induction l generalizing d0 with
  | nil => left; simpa using hq
  | cons x xs ih =>
    rcases ih _ hq with h | ⟨y, hy, he⟩
    · rcases mem_dictInsert _ _ _ _ h with h2 | h2
      · left; exact h2
      · right; exact ⟨x, by simp, h2⟩
    · right; exact ⟨y, by simp [hy], he⟩

theorem isKey_eq_true_iff {α : Type} (d : List (Str × α)) (k : Str) :
    isKey d k = true ↔ ∃ v, (k, v) ∈ d := by
  induction d with
  | nil => simp [isKey]
  | cons p rest ih =>
    by_cases hp : p.1 = k
    · simp only [isKey, if_pos hp, true_iff]
      exact ⟨p.2, by simp [← hp]⟩
    · simp only [isKey, if_neg hp, ih, List.mem_cons]
      constructor
      · rintro ⟨v, hv⟩; exact ⟨v, Or.inr hv⟩
      · rintro ⟨v, hv | hv⟩
        · exact absurd (congrArg Prod.fst hv).symm hp
        · exact ⟨v, hv⟩

theorem dictInsert_ne_nil {α : Type} (d : List (Str × α)) (k : Str) (v : α) :
    dictInsert d k v ≠ [] := by
  unfold dictInsert
  split
  · rename_i h
    cases d with
    | nil => simp [isKey] at h
    | cons p rest => simp
  · simp

theorem foldl_dictInsert_ne_nil {β α : Type} (f : β → Str) (g : β → α) (l : List β)
    (d0 : List (Str × α)) (h : d0 ≠ [] ∨ l ≠ []) :
    l.foldl (fun d x => dictInsert d (f x) (g x)) d0 ≠ [] := by
  induction l generalizing d0 with
  | nil => simpa using h.resolve_right (by simp)
  | cons x xs ih => exact ih _ (Or.inl (dictInsert_ne_nil _ _ _))

/-! ### Lemmas about the modelled string primitives -/

theorem isPrefixOf_append_self (l x : List Char) : l.isPrefixOf (l ++ x) = true := by
  induction l with
  | nil => simp [List.isPrefixOf]
  | cons c rest ih => simp [List.isPrefixOf, ih]

theorem replaceAllGo_skip (pat t x : Str) :
    replaceAllGo pat t.length (t ++ x) = replaceAllGo pat 0 x := by
  induction t with
  | nil => rfl
  | cons c t ih => simpa [replaceAllGo] using ih

theorem replaceAll_append_self (pat x : Str) :
    replaceAll pat (pat ++ x) = replaceAll pat x := by
  cases pat with
  | nil => rfl
  | cons c p =>
    show replaceAllGo (c :: p) 0 ((c :: p) ++ x) = replaceAllGo (c :: p) 0 x
    rw [List.cons_append, replaceAllGo, if_pos]
    · have : (c :: p).length - 1 = p.length := by simp
      rw [this, replaceAllGo_skip]
    · exact ⟨by simp, by rw [← List.cons_append]; exact isPrefixOf_append_self (c :: p) x⟩

theorem replaceAllGo_sublist (pat : Str) (n : Nat) (s : Str) :
    List.Sublist (replaceAllGo pat n s) s := by
  induction s generalizing n with
  | nil => simp [replaceAllGo]
  | cons c rest ih =>
    cases n with
    | succ m => exact .cons c (ih m)
    | zero =>
      rw [replaceAllGo]
      split
      · exact .cons c (ih _)
      · exact .cons₂ c (ih 0)

theorem replaceAll_sublist (pat s : Str) : List.Sublist (replaceAll pat s) s :=
  replaceAllGo_sublist pat 0 s

theorem lstripSlash_head (s : Str) : (lstripSlash s).head? ≠ some '/' := by
  induction s with
  | nil => simp [lstripSlash]
  | cons c rest ih => by_cases h : c = '/' <;> simp [lstripSlash, h, ih]

theorem lstripSlash_append_slashes (a b : Str) (h : ∀ c ∈ a, c = '/') :
    lstripSlash (a ++ b) = lstripSlash b := by
  induction a with
  | nil => rfl
  | cons c rest ih =>
    have hc := h c (by simp)
    simp only [List.cons_append, lstripSlash, if_pos hc]
    exact ih (fun c2 h2 => h c2 (by simp [h2]))

theorem lstripSlash_of_no_slash (s : Str) (h : '/' ∉ s) : lstripSlash s = s := by
  cases s with
  | nil => rfl
  | cons c rest =>
    have hc : ¬ c = '/' := fun hc => h (by simp [hc])
    simp [lstripSlash, hc]

theorem splitOn_ne_nil (sep : Char) (s : Str) : splitOn sep s ≠ [] := by
  cases s with
  | nil => simp [splitOn]
  | cons c rest =>
    by_cases h : c = sep
    · simp [splitOn, h]
    · rw [splitOn]
      simp only [if_neg h]
      cases hs : splitOn sep rest <;> simp

theorem splitOn_slash_cons (s : Str) : splitOn '/' ('/' :: s) = [] :: splitOn '/' s := by
  simp [splitOn]

/-! ### Deep-merge computation lemmas -/

theorem deep_merge_none_right (a : Val) : deep_merge a .none = a := by
  cases a <;> simp [deep_merge]

theorem deep_merge_none_left (b : Val) : deep_merge .none b = b := by
  cases b <;> simp [deep_merge]

theorem deep_merge_str_right (a : Val) (s : Str) : deep_merge a (.str s) = .str s := by
  cases a <;> simp [deep_merge]

theorem deep_merge_dict_dict (da db : List (Str × Val)) :
    deep_merge (.dict da) (.dict db) = .dict (mergeKeys da db (keysUnion da db)) := by
  simp [deep_merge]

theorem mergeKeys_nil (da db : List (Str × Val)) : mergeKeys da db [] = [] := by
  simp [mergeKeys]

theorem mergeKeys_cons (da db : List (Str × Val)) (k : Str) (ks : List Str) :
    mergeKeys da db (k :: ks) =
      (k, deep_merge (getVal da k) (getVal db k)) :: mergeKeys da db ks := by
  simp [mergeKeys]

theorem keysUnion_nil_single (k : Str) (x : Val) : keysUnion [] [(k, x)] = [k] := by
  simp [keysUnion, dedupAux]

theorem keysUnion_single_same (k : Str) (x y : Val) : keysUnion [(k, x)] [(k, y)] = [k] := by
  simp [keysUnion, dedupAux]

theorem keysUnion_single_ne (k1 k2 : Str) (x y : Val) (h : k1 ≠ k2) :
    keysUnion [(k1, x)] [(k2, y)] = [k1, k2] := by
  simp [keysUnion, dedupAux, Ne.symm h]

theorem deep_merge_empty_single (k : Str) (x : Val) :
    deep_merge (.dict []) (.dict [(k, x)]) = .dict [(k, x)] := by
  rw [deep_merge_dict_dict, keysUnion_nil_single, mergeKeys_cons, mergeKeys_nil]
  simp [getVal, deep_merge_none_left]

theorem deep_merge_single_same (k : Str) (x y : Val) :
    deep_merge (.dict [(k, x)]) (.dict [(k, y)]) = .dict [(k, deep_merge x y)] := by
  rw [deep_merge_dict_dict, keysUnion_single_same, mergeKeys_cons, mergeKeys_nil]
  simp [getVal]

theorem deep_merge_single_ne (k1 k2 : Str) (x y : Val) (h : k1 ≠ k2) :
    deep_merge (.dict [(k1, x)]) (.dict [(k2, y)]) = .dict [(k1, x), (k2, y)] := by
  rw [deep_merge_dict_dict, keysUnion_single_ne _ _ _ _ h, mergeKeys_cons, mergeKeys_cons,
    mergeKeys_nil]
  simp [getVal, h, Ne.symm h, deep_merge_none_left, deep_merge_none_right]

/-! ### Lemmas about tree equivalence -/

theorem veq_dict_dict (a b : List (Str × Val)) :
    veq (.dict a) (.dict b) = veqKeys a b (keysUnion a b) := by
  simp [veq]

theorem veqKeys_nil (a b : List (Str × Val)) : veqKeys a b [] = true := by
  simp [veqKeys]

theorem veqKeys_cons (a b : List (Str × Val)) (k : Str) (ks : List Str) :
    veqKeys a b (k :: ks) = (veq (getVal a k) (getVal b k) && veqKeys a b ks) := by
  simp [veqKeys]

theorem veq_single_same (k : Str) (x y : Val) :
    veq (.dict [(k, x)]) (.dict [(k, y)]) = veq x y := by
  rw [veq_dict_dict, keysUnion_single_same, veqKeys_cons, veqKeys_nil]
  simp [getVal]

theorem veq_swap_pair (k1 k2 : Str) (x y : Val) (h : k1 ≠ k2)
    (hx : veq x x = true) (hy : veq y y = true) :
    veq (.dict [(k1, x), (k2, y)]) (.dict [(k2, y), (k1, x)]) = true := by
  rw [veq_dict_dict]
  have hku : keysUnion [(k1, x), (k2, y)] [(k2, y), (k1, x)] = [k1, k2] := by
    simp [keysUnion, dedupAux, h, Ne.symm h]
  rw [hku, veqKeys_cons, veqKeys_cons, veqKeys_nil]
  simp [getVal, h, Ne.symm h, hx, hy]

theorem veq_refl_tree (ks : List Str) (v : Option Str) :
    veq (tree_dict ks v) (tree_dict ks v) = true := by
  induction ks with
  | nil => cases v <;> simp [tree_dict, valOfOpt, veq]
  | cons k ks ih =>
    simp only [tree_dict]
    rw [veq_single_same]
    exact ih

/-! ### Order-sensitivity of the deep merge on single-branch trees -/

theorem merge_tree_comm (ks1 : List Str) : ∀ (ks2 : List Str) (v1 v2 : Option Str),
    ¬ initialSegment ks1 ks2 → ¬ initialSegment ks2 ks1 →
    veq (deep_merge (tree_dict ks1 v1) (tree_dict ks2 v2))
        (deep_merge (tree_dict ks2 v2) (tree_dict ks1 v1)) = true := by
  induction ks1 with
  | nil => exact fun ks2 v1 v2 h1 _ => absurd ⟨ks2, rfl⟩ h1
  | cons k1 t1 ih =>
    intro ks2 v1 v2 h1 h2
    cases ks2 with
    | nil => exact absurd ⟨k1 :: t1, rfl⟩ h2
    | cons k2 t2 =>
      by_cases hk : k1 = k2
      · subst hk
        simp only [tree_dict]
        rw [deep_merge_single_same, deep_merge_single_same, veq_single_same]
        apply ih t2
        · rintro ⟨t, ht⟩
          exact h1 ⟨t, by rw [List.cons_append, ht]⟩
        · rintro ⟨t, ht⟩
          exact h2 ⟨t, by rw [List.cons_append, ht]⟩
      · simp only [tree_dict]
        rw [deep_merge_single_ne _ _ _ _ hk, deep_merge_single_ne _ _ _ _ (Ne.symm hk)]
        exact veq_swap_pair _ _ _ _ hk (veq_refl_tree _ _) (veq_refl_tree _ _)

theorem merge_tree_right_wins (ks : List Str) (s1 s2 : Str) (h : ks ≠ []) :
    deep_merge (tree_dict ks (some s1)) (tree_dict ks (some s2)) = tree_dict ks (some s2) := by
  induction ks with
  | nil => exact absurd rfl h
  | cons k t ih =>
    simp only [tree_dict]
    rw [deep_merge_single_same]
    cases t with
    | nil => simp [tree_dict, valOfOpt, deep_merge_str_right]
    | cons k2 t2 => rw [ih (by simp)]

theorem merge_tree_none_keeps_left (ks : List Str) (s : Str) (h : ks ≠ []) :
    deep_merge (tree_dict ks (some s)) (tree_dict ks none) = tree_dict ks (some s) := by
  induction ks with
  | nil => exact absurd rfl h
  | cons k t ih =>
    simp only [tree_dict]
    rw [deep_merge_single_same]
    cases t with
    | nil => simp [tree_dict, valOfOpt, deep_merge_none_right]
    | cons k2 t2 => rw [ih (by simp)]

/-- When the base path matches nowhere inside `x ++ base` before its final
`base`, the single scanning pass of `str.replace` copies `x` and removes the
trailing occurrence. -/
theorem replaceAll_clean_suffix (base : Str) :
    ∀ (x : Str), (∀ i, i < x.length → base.isPrefixOf ((x ++ base).drop i) = false) →
    replaceAll base (x ++ base) = x := by
  intro x
  induction x with
  | nil =>
    intro _
    have h2 := replaceAll_append_self base []
    rw [List.append_nil] at h2
    simpa [replaceAll, replaceAllGo] using h2
  | cons c xs ih =>
    intro h
    show replaceAllGo base 0 (c :: (xs ++ base)) = c :: xs
    rw [replaceAllGo, if_neg]
    · have := ih (fun i hi => by simpa using h (i + 1) (by simpa using hi))
      rw [show replaceAllGo base 0 (xs ++ base) = replaceAll base (xs ++ base) from rfl, this]
    · rintro ⟨_, hpre⟩
      have h0 := h 0 (by simp)
      rw [List.drop_zero, List.cons_append] at h0
      rw [h0] at hpre
      exact absurd hpre (by simp)

/-! ### Claim theorems -/

/-- Claim C1, counterexample: with base path `/a` and entry name `/a/x/a/y`,
the source's `name.replace(base_path, "")` produces the flat key `/x/y`,
removing the second occurrence of `/a` as well, whereas removing exactly the
first literal occurrence (the claim's wording) would give `/x/a/y`. -/
theorem claim1_counterexample :
    gpbpFlat ['/', 'a'] [(['/', 'a', '/', 'x', '/', 'a', '/', 'y'], some ['v'])] =
      [(['/', 'x', '/', 'y'], some ['v'])] ∧
    removeFirstOcc ['/', 'a'] ['/', 'a', '/', 'x', '/', 'a', '/', 'y'] =
      ['/', 'x', '/', 'a', '/', 'y'] ∧
    (['/', 'x', '/', 'y'] : Str) ≠ ['/', 'x', '/', 'a', '/', 'y'] := by
  refine ⟨by decide, by decide, by decide⟩

/-- Claim C1, amended: the suffix-path key equals the entry's full name
with every left-to-right non-overlapping occurrence of the base path
removed, not only the first.  Stripping a leading base path continues over
the remainder of the name, and a later occurrence of the base path (here a
trailing one, with the base path matching nowhere earlier) is removed as
well. -/
theorem claim1_amended :
    (∀ (base x : Str) (v : Option Str),
        gpbpFlat base [(base ++ x, v)] = [(replaceAll base x, v)]) ∧
    (∀ (base x : Str) (v : Option Str), base ≠ [] →
        (∀ i, i < x.length → base.isPrefixOf ((x ++ base).drop i) = false) →
        gpbpFlat base [(base ++ (x ++ base), v)] = [(x, v)]) := by
  constructor
  · intro base x v
    simp [gpbpFlat, dictInsert, isKey, replaceAll_append_self]
  · intro base x v hb h
    simp only [gpbpFlat, List.foldl_cons, List.foldl_nil, dictInsert, isKey, List.nil_append,
      Bool.false_eq_true, if_false]
    rw [replaceAll_append_self, replaceAll_clean_suffix base x h]

/-- Witness for claim C1 (amended): concrete evaluations of both parts. -/
theorem claim1_witness :
    gpbpFlat ['/', 'a'] [(['/', 'a', '/', 'x'], some ['v'])] = [(['/', 'x'], some ['v'])] ∧
    gpbpFlat ['/', 'a'] [(['/', 'a', 'z', '/', 'a'], some ['v'])] = [(['z'], some ['v'])] := by
  constructor
  · rw [show (['/', 'a', '/', 'x'] : Str) = ['/', 'a'] ++ ['/', 'x'] from rfl,
      claim1_amended.1 ['/', 'a'] ['/', 'x'] (some ['v'])]
    decide
  · exact claim1_amended.2 ['/', 'a'] ['z'] (some ['v']) (by decide) (by decide)

/-- Claim C3: deep-merging the single-branch trees of two suffix paths
neither of which is an initial segment of the other is order-independent up
to dictionary-as-map equality; merging two trees that bind the exact same
full path to string leaves is not commutative and the right-hand leaf wins. -/
theorem claim3_deep_merge_order :
    (∀ (ks1 ks2 : List Str) (v1 v2 : Option Str),
        ¬ initialSegment ks1 ks2 → ¬ initialSegment ks2 ks1 →
        veq (deep_merge (tree_dict ks1 v1) (tree_dict ks2 v2))
            (deep_merge (tree_dict ks2 v2) (tree_dict ks1 v1)) = true) ∧
    (∀ (ks : List Str) (s1 s2 : Str), ks ≠ [] →
        deep_merge (tree_dict ks (some s1)) (tree_dict ks (some s2)) =
          tree_dict ks (some s2)) ∧
    deep_merge (tree_dict [['a']] (some ['1'])) (tree_dict [['a']] (some ['2'])) ≠
      deep_merge (tree_dict [['a']] (some ['2'])) (tree_dict [['a']] (some ['1'])) := by
  refine ⟨merge_tree_comm, merge_tree_right_wins, ?_⟩
  rw [merge_tree_right_wins _ _ _ (by simp), merge_tree_right_wins _ _ _ (by simp)]
  simp [tree_dict, valOfOpt]

/-- Witness for claim C3 at concrete disjoint and overlapping paths. -/
theorem claim3_witness :
    veq (deep_merge (tree_dict [['a']] (some ['1'])) (tree_dict [['b']] (some ['2'])))
        (deep_merge (tree_dict [['b']] (some ['2'])) (tree_dict [['a']] (some ['1']))) = true ∧
    deep_merge (tree_dict [['c']] (some ['1'])) (tree_dict [['c']] (some ['2'])) =
      tree_dict [['c']] (some ['2']) := by
  constructor
  · exact claim3_deep_merge_order.1 [['a']] [['b']] (some ['1']) (some ['2'])
      (by rintro ⟨t, ht⟩; simp at ht) (by rintro ⟨t, ht⟩; simp at ht)
  · exact claim3_deep_merge_order.2.1 [['c']] ['1'] ['2'] (by simp)

/-- Claim C9: in the deep merge an incoming `None` leaf is treated as
absent: a leaf `None` never overwrites anything (`a if b is None else b`),
and in particular a later `None`-valued parameter at the same full path
keeps the earlier non-`None` leaf. -/
theorem claim9_none_never_overwrites :
    (∀ s : Str, deep_merge (.str s) .none = .str s) ∧
    (∀ (ks : List Str) (s : Str), ks ≠ [] →
        deep_merge (tree_dict ks (some s)) (tree_dict ks none) = tree_dict ks (some s)) :=
  ⟨fun _ => deep_merge_none_right _, merge_tree_none_keeps_left⟩

/-- Witness for claim C9 at a concrete two-segment path. -/
theorem claim9_witness :
    deep_merge (.str ['v']) .none = .str ['v'] ∧
    deep_merge (tree_dict [['a'], ['b']] (some ['v'])) (tree_dict [['a'], ['b']] none) =
      tree_dict [['a'], ['b']] (some ['v']) :=
  ⟨claim9_none_never_overwrites.1 ['v'],
   claim9_none_never_overwrites.2 [['a'], ['b']] ['v'] (by simp)⟩

/-- Claim C5: `_assert_required` succeeds exactly when every required name
is a key of the actual flat map (a key mapped to `None` counts as present),
and on failure the raised error carries the queried path and exactly the
required names that are not keys. -/
theorem claim5_assert_required (required : List Str) (actual : List (Str × Option Str))
    (path : Str) :
    (assert_required required actual path = .ok () ↔
      ∀ n ∈ required, isKey actual n = true) ∧
    (∀ e, assert_required required actual path = .error e →
      e.parameter_path = path ∧
      (∀ n, n ∈ e.parameter_names ↔ n ∈ required ∧ isKey actual n = false)) := by
  have hmiss : ∀ n, (n ∈ required.filter (fun n => ! isKey actual n)) ↔
      (n ∈ required ∧ isKey actual n = false) := by
    intro n; simp [List.mem_filter]
  by_cases hm : required.filter (fun n => ! isKey actual n) = []
  · constructor
    · constructor
      · intro _ n hn
        by_contra hfalse
        have : n ∈ required.filter (fun n => ! isKey actual n) :=
          (hmiss n).2 ⟨hn, by simpa using hfalse⟩
        simp [hm] at this
      · intro _
        simp [assert_required, hm]
    · intro e he
      simp [assert_required, hm] at he
  · constructor
    · constructor
      · intro h
        simp [assert_required, hm] at h
      · intro hall
        exact absurd (List.filter_eq_nil_iff.2 fun n hn => by simp [hall n hn]) hm
    · intro e he
      have he2 : (⟨required.filter (fun n => ! isKey actual n), path⟩ :
          MissingParameterError) = e := by
        simpa [assert_required, hm] using he
      rw [← he2]
      exact ⟨rfl, hmiss⟩

/-- Witness for claim C5: the spec's two concrete examples. -/
theorem claim5_witness :
    assert_required [['k', '1']] [(['k', '1'], none)] ['/', 'b', 'a', 's', 'e', '/'] =
      .ok () ∧
    ((⟨[['k', '2']], ['/', 'b', 'a', 's', 'e', '/']⟩ :
        MissingParameterError).parameter_path = ['/', 'b', 'a', 's', 'e', '/'] ∧
      (∀ n, n ∈ [['k', '2']] ↔
        n ∈ [['k', '1'], ['k', '2']] ∧
          isKey [(['k', '1'], some ['v'])] n = false)) := by
  constructor
  · exact (claim5_assert_required _ _ _).1.mpr (by decide)
  · exact (claim5_assert_required [['k', '1'], ['k', '2']] [(['k', '1'], some ['v'])]
      ['/', 'b', 'a', 's', 'e', '/']).2 ⟨[['k', '2']], ['/', 'b', 'a', 's', 'e', '/']⟩
      (by rfl)

/-- Claim C7: `get_parameters` raises `InvalidParametersError` carrying
exactly the collaborator's invalid-name list iff that list is non-empty; it
then returns no map at all (so no null-filling is observable), and with an
empty or absent list it returns a map. -/
theorem claim7_invalid_parameters (names invalid : List Str)
    (entries : List (Option Str × Option Str)) :
    (invalid ≠ [] → get_parameters names invalid entries = .error ⟨invalid⟩) ∧
    (invalid = [] → ∃ m, get_parameters names invalid entries = .ok m) := by
  unfold get_parameters
  constructor
  · intro h
    rw [if_pos h]
  · intro h
    subst h
    simp

/-- Witness for claim C7: one failing and one succeeding concrete call. -/
theorem claim7_witness :
    get_parameters [['a']] [['b', 'a', 'd']] [] = .error ⟨[['b', 'a', 'd']]⟩ ∧
    ∃ m, get_parameters [['a']] [] [] = .ok m :=
  ⟨(claim7_invalid_parameters [['a']] [['b', 'a', 'd']] []).1 (by decide),
   (claim7_invalid_parameters [['a']] [] []).2 rfl⟩

/-! ### Null-filling lemmas for `get_parameters` -/

theorem isKey_foldl_fillNone (names : List Str) (d0 : List (Str × Option Str)) (k : Str) :
    isKey (names.foldl (fun d n => dictInsert d n none) d0) k = true ↔
      (isKey d0 k = true ∨ k ∈ names) := by
  induction names generalizing d0 with
  | nil => simp
  | cons n ns ih =>
    rw [List.foldl_cons, ih, isKey_dictInsert]
    simp only [List.mem_cons]
    tauto

theorem isKey_fillNone (names : List Str) (k : Str) :
    isKey (fillNone names) k = true ↔ k ∈ names := by
  rw [fillNone, isKey_foldl_fillNone]
  simp [isKey]

theorem lookupV_foldl_fillNone (names : List Str) (d0 : List (Str × Option Str)) (k : Str) :
    lookupV (names.foldl (fun d n => dictInsert d n none) d0) k =
      if k ∈ names then some none else lookupV d0 k := by
  induction names generalizing d0 with
  | nil => simp
  | cons n ns ih =>
    rw [List.foldl_cons, ih]
    by_cases h : k ∈ ns
    · simp [h]
    · by_cases h2 : k = n
      · subst h2
        simp [h, lookupV_dictInsert_self]
      · simp [h, h2, lookupV_dictInsert_ne _ _ _ _ h2]

theorem lookupV_fillNone (names : List Str) (k : Str) (h : k ∈ names) :
    lookupV (fillNone names) k = some none := by
  rw [fillNone, lookupV_foldl_fillNone, if_pos h]

theorem isKey_mergeRetrieved (names : List Str)
    (entries : List (Option Str × Option Str)) (d : List (Str × Option Str)) (k : Str)
    (hd : ∀ n ∈ names, isKey d n = true) :
    isKey (mergeRetrieved names d entries) k = isKey d k := by
  induction entries generalizing d with
  | nil => rfl
  | cons e es ih =>
    obtain ⟨en, ev⟩ := e
    cases en with
    | none => exact ih d hd
    | some n =>
      by_cases hn : n ∈ names
      · have hstep : mergeRetrieved names d ((some n, ev) :: es) =
            mergeRetrieved names (dictInsert d n ev) es := by
          simp [mergeRetrieved, hn]
        rw [hstep, ih (dictInsert d n ev)
          (fun n2 hn2 => (isKey_dictInsert _ _ _ _).2 (Or.inl (hd n2 hn2)))]
        rw [Bool.eq_iff_iff, isKey_dictInsert]
        constructor
        · rintro (h | h)
          · exact h
          · subst h
            exact hd _ hn
        · exact Or.inl
      · have hstep : mergeRetrieved names d ((some n, ev) :: es) =
            mergeRetrieved names d es := by
          simp [mergeRetrieved, hn]
        rw [hstep]
        exact ih d hd

theorem lookupV_mergeRetrieved_eq (names : List Str)
    (entries : List (Option Str × Option Str)) (d : List (Str × Option Str)) (n : Str)
    (hno : ∀ v, (some n, v) ∉ entries) :
    lookupV (mergeRetrieved names d entries) n = lookupV d n := by
  induction entries generalizing d with
  | nil => rfl
  | cons e es ih =>
    obtain ⟨en, ev⟩ := e
    have hno2 : ∀ v, (some n, v) ∉ es := fun v hv => hno v (by simp [hv])
    cases en with
    | none => exact ih d hno2
    | some m =>
      by_cases hm : m ∈ names
      · have hmn : n ≠ m := by
          intro he
          subst he
          exact hno ev (by simp)
        have hstep : mergeRetrieved names d ((some m, ev) :: es) =
            mergeRetrieved names (dictInsert d m ev) es := by
          simp [mergeRetrieved, hm]
        rw [hstep, ih _ hno2, lookupV_dictInsert_ne _ _ _ _ hmn]
      · have hstep : mergeRetrieved names d ((some m, ev) :: es) =
            mergeRetrieved names d es := by
          simp [mergeRetrieved, hm]
        rw [hstep]
        exact ih d hno2

theorem lookupV_mergeRetrieved_entry (names : List Str)
    (entries : List (Option Str × Option Str)) (n : Str) (v : Option Str) :
    ∀ (d : List (Str × Option Str)),
    (entries.filterMap Prod.fst).Nodup → n ∈ names → (some n, v) ∈ entries →
    lookupV (mergeRetrieved names d entries) n = some v := by
  induction entries with
  | nil => intro d _ _ hmem; simp at hmem
  | cons e es ih =>
    intro d hnd hn hmem
    obtain ⟨en, ev⟩ := e
    rcases List.mem_cons.1 hmem with he | he
    · injection he with h1 h2
      subst h1
      subst h2
      have hnd2 : (n :: es.filterMap Prod.fst).Nodup := hnd
      rw [List.nodup_cons] at hnd2
      have hno : ∀ w, (some n, w) ∉ es := by
        intro w hw
        exact hnd2.1 (List.mem_filterMap.2 ⟨(some n, w), hw, rfl⟩)
      have hstep : mergeRetrieved names d ((some n, v) :: es) =
          mergeRetrieved names (dictInsert d n v) es := by
        simp [mergeRetrieved, hn]
      rw [hstep, lookupV_mergeRetrieved_eq _ _ _ _ hno, lookupV_dictInsert_self]
    · cases en with
      | none =>
        have hnd2 : (es.filterMap Prod.fst).Nodup := hnd
        exact ih d hnd2 hn he
      | some m =>
        have hnd2 : (es.filterMap Prod.fst).Nodup :=
          (List.nodup_cons.1 (show (m :: es.filterMap Prod.fst).Nodup from hnd)).2
        by_cases hm : m ∈ names
        · have hstep : mergeRetrieved names d ((some m, ev) :: es) =
              mergeRetrieved names (dictInsert d m ev) es := by
            simp [mergeRetrieved, hm]
          rw [hstep]
          exact ih (dictInsert d m ev) hnd2 hn he
        · have hstep : mergeRetrieved names d ((some m, ev) :: es) =
              mergeRetrieved names d es := by
            simp [mergeRetrieved, hm]
          rw [hstep]
          exact ih d hnd2 hn he

/-- Claim C2: with no invalid names, `get_parameters` returns a map whose
key set is exactly the requested names; a requested name present among the
returned entries (whose names are pairwise distinct) maps to its returned
value, every other requested name maps to `None`, and entries for
unrequested names are dropped. -/
theorem claim2_get_parameters (ssm_key_names : List Str)
    (entries : List (Option Str × Option Str))
    (hnd : (entries.filterMap Prod.fst).Nodup) :
    ∃ m, get_parameters ssm_key_names [] entries = .ok m ∧
      (∀ k, isKey m k = true ↔ k ∈ ssm_key_names) ∧
      (∀ n v, n ∈ ssm_key_names → (some n, v) ∈ entries → lookupV m n = some v) ∧
      (∀ n, n ∈ ssm_key_names → (∀ v, (some n, v) ∉ entries) → lookupV m n = some none) := by
  refine ⟨mergeRetrieved ssm_key_names (fillNone ssm_key_names) entries,
    by simp [get_parameters], ?_, ?_, ?_⟩
  · intro k
    rw [isKey_mergeRetrieved _ _ _ _ (fun n hn => (isKey_fillNone _ _).2 hn)]
    exact isKey_fillNone _ _
  · intro n v hn hmem
    exact lookupV_mergeRetrieved_entry _ _ _ _ _ hnd hn hmem
  · intro n hn hno
    rw [lookupV_mergeRetrieved_eq _ _ _ _ hno]
    exact lookupV_fillNone _ _ hn

/-- Witness for claim C2: one returned requested name, one missing
requested name, and one returned unrequested name. -/
theorem claim2_witness :
    ∃ m, get_parameters [['a'], ['b']] []
        [(some ['a'], some ['1']), (some ['c'], some ['3'])] = .ok m ∧
      (∀ k, isKey m k = true ↔ k ∈ [['a'], ['b']]) ∧
      (∀ n v, n ∈ [['a'], ['b']] →
        (some n, v) ∈ [(some ['a'], some ['1']), (some ['c'], some ['3'])] →
        lookupV m n = some v) ∧
      (∀ n, n ∈ [['a'], ['b']] →
        (∀ v, (some n, v) ∉ [(some ['a'], some ['1']), (some ['c'], some ['3'])]) →
        lookupV m n = some none) :=
  claim2_get_parameters [['a'], ['b']] [(some ['a'], some ['1']), (some ['c'], some ['3'])]
    (by decide)

/-- Claim C4: with `recursive=True, nested=True` the result is the tree
built by splitting each flat-map suffix on the separator, building the
single-branch tree of each `(suffix, value)` pair, and deep-merging these
trees left to right into an accumulator; suffixes `env/a` and `env/b`
under base `/bar/` yield the tree `env -> {a, b}`. -/
theorem claim4_nested_tree :
    (∀ (base : Str) (entries : List (Str × Option Str)),
        get_parameters_by_path base true true [] entries =
          .ok (.tree ((gpbpFlat base entries).foldl
            (fun parsed kv => deep_merge parsed (tree_dict (splitOn '/' kv.1) kv.2))
            (.dict [])))) ∧
    get_parameters_by_path ['/', 'b', 'a', 'r', '/'] true true []
        [(['/', 'b', 'a', 'r', '/', 'e', 'n', 'v', '/', 'a'], some ['1']),
         (['/', 'b', 'a', 'r', '/', 'e', 'n', 'v', '/', 'b'], some ['2'])] =
      .ok (.tree (.dict [(['e', 'n', 'v'],
        .dict [(['a'], Val.str ['1']), (['b'], Val.str ['2'])])])) := by
  constructor
  · intro base entries
    rfl
  · have hflat : gpbpFlat ['/', 'b', 'a', 'r', '/']
        [(['/', 'b', 'a', 'r', '/', 'e', 'n', 'v', '/', 'a'], some ['1']),
         (['/', 'b', 'a', 'r', '/', 'e', 'n', 'v', '/', 'b'], some ['2'])] =
        [(['e', 'n', 'v', '/', 'a'], some ['1']), (['e', 'n', 'v', '/', 'b'], some ['2'])] := by
      decide
    have hres : get_parameters_by_path ['/', 'b', 'a', 'r', '/'] true true []
        [(['/', 'b', 'a', 'r', '/', 'e', 'n', 'v', '/', 'a'], some ['1']),
         (['/', 'b', 'a', 'r', '/', 'e', 'n', 'v', '/', 'b'], some ['2'])] =
        .ok (.tree (parse_parameters
          [(['e', 'n', 'v', '/', 'a'], some ['1']), (['e', 'n', 'v', '/', 'b'], some ['2'])])) := by
      show Except.ok (GpbpResult.tree (parse_parameters (gpbpFlat _ _))) = _
      rw [hflat]
    have h0 : parse_parameters
        [(['e', 'n', 'v', '/', 'a'], some ['1']), (['e', 'n', 'v', '/', 'b'], some ['2'])] =
        deep_merge
          (deep_merge (.dict [])
            (tree_dict (splitOn '/' ['e', 'n', 'v', '/', 'a']) (some ['1'])))
          (tree_dict (splitOn '/' ['e', 'n', 'v', '/', 'b']) (some ['2'])) := by
      show List.foldl
          (fun (parsed : Val) (kv : Str × Option Str) =>
            deep_merge parsed (tree_dict (splitOn '/' kv.1) kv.2))
          (.dict [])
          [(['e', 'n', 'v', '/', 'a'], some ['1']), (['e', 'n', 'v', '/', 'b'], some ['2'])]
          = _
      rw [List.foldl_cons, List.foldl_cons, List.foldl_nil]
    rw [hres, h0,
      (by decide : splitOn '/' ['e', 'n', 'v', '/', 'a'] = [['e', 'n', 'v'], ['a']]),
      (by decide : splitOn '/' ['e', 'n', 'v', '/', 'b'] = [['e', 'n', 'v'], ['b']])]
    simp only [tree_dict, valOfOpt]
    rw [deep_merge_empty_single, deep_merge_single_same,
      deep_merge_single_ne _ _ _ _ (by decide : (['a'] : Str) ≠ ['b'])]

/-! ### Shape of the flat map under a well-formed path response -/

/-- Every string splits into its leading slashes and its `lstrip("/")`. -/
theorem lstrip_decomp (s : Str) :
    ∃ a, s = a ++ lstripSlash s ∧ ∀ c ∈ a, c = '/' := by
  induction s with
  | nil => exact ⟨[], rfl, by simp⟩
  | cons c rest ih =>
    by_cases h : c = '/'
    · obtain ⟨a, ha, hall⟩ := ih
      refine ⟨c :: a, ?_, ?_⟩
      · rw [show lstripSlash (c :: rest) = lstripSlash rest by simp [lstripSlash, h],
          List.cons_append, ← ha]
      · intro c2 hc2
        rcases List.mem_cons.1 hc2 with h2 | h2
        · rw [h2, h]
        · exact hall c2 h2
    · exact ⟨[], by simp [lstripSlash, h], by simp⟩

/-- Removing occurrences of the base path from a name of the form
`base ++ suffix` and then stripping leading slashes cannot create a slash
when the suffix had none beyond its leading slashes. -/
theorem stripped_key_no_slash (p suffix : Str) (hs : '/' ∉ lstripSlash suffix) :
    '/' ∉ lstripSlash (replaceAll p (p ++ suffix)) := by
  rw [replaceAll_append_self]
  obtain ⟨a, ha, hall⟩ := lstrip_decomp suffix
  have hsub : List.Sublist (replaceAll p suffix) (a ++ lstripSlash suffix) := by
    rw [← ha]
    exact replaceAll_sublist p suffix
  rw [List.sublist_append_iff] at hsub
  obtain ⟨l1, l2, he, h1, h2⟩ := hsub
  rw [he, lstripSlash_append_slashes _ _ (fun c hc => hall c (h1.subset hc)),
    lstripSlash_of_no_slash _ (fun hc => hs (h2.subset hc))]
  exact fun hc => hs (h2.subset hc)

/-- Origin of the pairs of `strip_leading_slashes`. -/
theorem mem_strip_leading_slashes (params : List (Str × Option Str)) (kv : Str × Option Str)
    (h : kv ∈ strip_leading_slashes params) : ∃ q ∈ params, kv.1 = lstripSlash q.1 := by
  unfold strip_leading_slashes at h
  rcases mem_foldl_dictInsert (fun q => lstripSlash q.1) Prod.snd params [] kv h
    with h2 | ⟨q, hq, he⟩
  · simp at h2
  · exact ⟨q, hq, he⟩

/-- Origin of the pairs of the flat suffix map. -/
theorem mem_gpbpFlat (p : Str) (entries : List (Str × Option Str)) (q : Str × Option Str)
    (h : q ∈ gpbpFlat p entries) : ∃ e ∈ entries, q.1 = replaceAll p e.1 := by
  unfold gpbpFlat at h
  rcases mem_foldl_dictInsert (fun e => replaceAll p e.1) Prod.snd entries [] q h
    with h2 | ⟨e, he, hqe⟩
  · simp at h2
  · exact ⟨e, he, hqe⟩

/-- A non-empty response yields a non-empty flat suffix map. -/
theorem gpbpFlat_ne_nil (p : Str) (entries : List (Str × Option Str)) (h : entries ≠ []) :
    gpbpFlat p entries ≠ [] := by
  unfold gpbpFlat
  exact foldl_dictInsert_ne_nil (fun e => replaceAll p e.1) Prod.snd entries [] (Or.inr h)

/-- Claim C6: with `recursive=False` every key of the returned flat map has
no leading separator (unconditionally), and under the collaborator's
non-recursive contract — every entry name extends the base path by at most
leading separators and one separator-free segment — no returned key
contains a separator at all, whether or not the base path ends in one. -/
theorem claim6_nonrecursive_keys (p : Str) (nested : Bool)
    (entries : List (Str × Option Str)) :
    (∀ m, get_parameters_by_path p false nested [] entries = .ok (.flat m) →
        ∀ kv ∈ m, kv.1.head? ≠ some '/') ∧
    ((∀ e ∈ entries, ∃ suffix, e.1 = p ++ suffix ∧ '/' ∉ lstripSlash suffix) →
      ∀ m, get_parameters_by_path p false nested [] entries = .ok (.flat m) →
        ∀ kv ∈ m, '/' ∉ kv.1) := by
  have hrun : get_parameters_by_path p false nested [] entries =
      .ok (.flat (strip_leading_slashes (gpbpFlat p entries))) := rfl
  constructor
  · intro m hm kv hkv
    rw [hrun] at hm
    simp only [Except.ok.injEq, GpbpResult.flat.injEq] at hm
    rw [← hm] at hkv
    obtain ⟨q, _, hke⟩ := mem_strip_leading_slashes _ kv hkv
    rw [hke]
    exact lstripSlash_head q.1
  · intro hresp m hm kv hkv
    rw [hrun] at hm
    simp only [Except.ok.injEq, GpbpResult.flat.injEq] at hm
    rw [← hm] at hkv
    obtain ⟨q, hq, hke⟩ := mem_strip_leading_slashes _ kv hkv
    obtain ⟨e, he, hqe⟩ := mem_gpbpFlat p entries q hq
    obtain ⟨suffix, hname, hsuf⟩ := hresp e he
    rw [hke, hqe, hname]
    exact stripped_key_no_slash p suffix hsuf

/-- Witness for claim C6: base path `/bar` (no trailing separator), entry
`/bar/a`; the returned key is `a`. -/
theorem claim6_witness :
    ∀ kv ∈ [((['a'] : Str), some ['1'])], '/' ∉ kv.1 :=
  (claim6_nonrecursive_keys ['/', 'b', 'a', 'r'] false
      [(['/', 'b', 'a', 'r', '/', 'a'], some ['1'])]).2
    (fun e he => by
      rw [List.mem_singleton.1 he]
      exact ⟨['/', 'a'], by decide, by decide⟩)
    [(['a'], some ['1'])] (by rfl)

/-- Under the hypothesis that every entry name is the base path followed by
a separator and a remainder in which the base path does not recur, every
key of the flat suffix map keeps its leading separator. -/
theorem gpbpFlat_keys_slash (p : Str) (entries : List (Str × Option Str))
    (hform : ∀ e ∈ entries, ∃ s, e.1 = p ++ '/' :: s ∧ replaceAll p ('/' :: s) = '/' :: s) :
    ∀ q ∈ gpbpFlat p entries, ∃ s, q.1 = '/' :: s := by
  intro q hq
  obtain ⟨e, he, hqe⟩ := mem_gpbpFlat p entries q hq
  obtain ⟨s, hname, hrep⟩ := hform e he
  exact ⟨s, by rw [hqe, hname, replaceAll_append_self, hrep]⟩

/-- Claim C8, counterexample: the claim as stated is false when the base
path recurs inside a returned name.  Base `/a`, required name `ab` (no
leading separator), response containing the entry named `/a/ab`
(`base ++ "/" ++ name`) together with `/a/aab`: replace-all turns `/a/aab`
into the flat key `ab`, the required check passes, and the call returns a
result instead of raising `MissingParameterError`. -/
theorem claim8_counterexample :
    get_parameters_by_path ['/', 'a'] false false [['a', 'b']]
        [(['/', 'a', '/', 'a', 'b'], some ['v']),
         (['/', 'a', '/', 'a', 'a', 'b'], some ['w'])] =
      .ok (.flat [(['b'], some ['v']), (['a', 'b'], some ['w'])]) ∧
    (['/', 'a', '/', 'a', 'b'] : Str) = ['/', 'a'] ++ '/' :: ['a', 'b'] ∧
    (['/', 'a'] : Str).getLast? ≠ some '/' ∧
    (['a', 'b'] : Str).head? ≠ some '/' :=
  ⟨rfl, by decide, by decide, by decide⟩

/-- Claim C8, amended: the required check runs on the flat map before
leading-separator stripping.  Provided the base path does not end in the
separator and does not recur inside the remainder of any returned name
(without this proviso the check can be satisfied by a mangled key, see the
counterexample), every flat key still carries its leading separator at
check time, so a required name written without a leading separator is
reported missing even though the collaborator returned the entry named
`base ++ "/" ++ name`. -/
theorem claim8_required_before_strip (p r : Str) (recursive nested : Bool)
    (required : List Str) (entries : List (Str × Option Str))
    (_hpLast : p.getLast? ≠ some '/')
    (hr : r ∈ required) (hrHead : r.head? ≠ some '/')
    (hform : ∀ e ∈ entries, ∃ s, e.1 = p ++ '/' :: s ∧ replaceAll p ('/' :: s) = '/' :: s)
    (_hmem : ∃ v, (p ++ '/' :: r, v) ∈ entries) :
    ∃ err, get_parameters_by_path p recursive nested required entries = .error err ∧
      r ∈ err.parameter_names ∧ err.parameter_path = p := by
  have hnotkey : isKey (gpbpFlat p entries) r = false := by
    by_contra h
    simp only [Bool.not_eq_false] at h
    obtain ⟨v, hv⟩ := (isKey_eq_true_iff _ _).1 h
    obtain ⟨s, hs⟩ := gpbpFlat_keys_slash p entries hform (r, v) hv
    exact hrHead (by rw [show r = '/' :: s from hs]; rfl)
  have hmiss : r ∈ required.filter (fun n => ! isKey (gpbpFlat p entries) n) :=
    List.mem_filter.2 ⟨hr, by simp [hnotkey]⟩
  have hreq : required ≠ [] := List.ne_nil_of_mem hr
  refine ⟨⟨required.filter (fun n => ! isKey (gpbpFlat p entries) n), p⟩, ?_, hmiss, rfl⟩
  simp only [get_parameters_by_path, assert_required, if_neg hreq,
    if_neg (List.ne_nil_of_mem hmiss)]

/-- Witness for claim C8: base `/bar`, required name `foo/x`, entry
`/bar/foo/x`; the call still raises with `foo/x` listed as missing. -/
theorem claim8_witness :
    ∃ err, get_parameters_by_path ['/', 'b', 'a', 'r'] false false
        [['f', 'o', 'o', '/', 'x']]
        [(['/', 'b', 'a', 'r', '/', 'f', 'o', 'o', '/', 'x'], some ['v'])] = .error err ∧
      ['f', 'o', 'o', '/', 'x'] ∈ err.parameter_names ∧
      err.parameter_path = ['/', 'b', 'a', 'r'] :=
  claim8_required_before_strip ['/', 'b', 'a', 'r'] ['f', 'o', 'o', '/', 'x'] false false
    [['f', 'o', 'o', '/', 'x']]
    [(['/', 'b', 'a', 'r', '/', 'f', 'o', 'o', '/', 'x'], some ['v'])]
    (by decide) (by decide) (by decide)
    (fun e he => by
      rw [List.mem_singleton.1 he]
      exact ⟨['f', 'o', 'o', '/', 'x'], by decide, by decide⟩)
    ⟨some ['v'], by decide⟩

/-- Folding suffixes that all start with the separator into an accumulator
whose only top-level key is the empty segment keeps that shape. -/
theorem parse_fold_empty_key (l : List (Str × Option Str))
    (hl : ∀ kv ∈ l, ∃ s, kv.1 = '/' :: s) :
    ∀ X : Val, ∃ Y,
      l.foldl (fun parsed kv => deep_merge parsed (tree_dict (splitOn '/' kv.1) kv.2))
        (.dict [(([] : Str), X)]) = .dict [([], Y)] := by
  induction l with
  | nil => exact fun X => ⟨X, rfl⟩
  | cons kv rest ih =>
    intro X
    obtain ⟨s, hs⟩ := hl kv (by simp)
    have hstep : deep_merge (.dict [(([] : Str), X)]) (tree_dict (splitOn '/' kv.1) kv.2) =
        .dict [([], deep_merge X (tree_dict (splitOn '/' s) kv.2))] := by
      rw [hs, splitOn_slash_cons]
      simp only [tree_dict]
      rw [deep_merge_single_same]
    rw [List.foldl_cons, hstep]
    exact ih (fun kv2 h2 => hl kv2 (by simp [h2])) _

/-- Claim C10, counterexample: the claim as stated is false when the base
path recurs inside an entry name.  Base `/a` (not ending in the separator)
and the non-empty response `[/a/ab]`, whose only name starts with the base
path followed by the separator: replace-all reduces the name to the suffix
`b`, so the returned tree's single top-level key is `b`, not the empty
string. -/
theorem claim10_counterexample :
    get_parameters_by_path ['/', 'a'] true true []
        [(['/', 'a', '/', 'a', 'b'], some ['v'])] =
      .ok (.tree (.dict [(['b'], Val.str ['v'])])) ∧
    (['/', 'a', '/', 'a', 'b'] : Str) = ['/', 'a'] ++ '/' :: ['a', 'b'] ∧
    (['/', 'a'] : Str).getLast? ≠ some '/' ∧
    (['b'] : Str) ≠ [] := by
  refine ⟨?_, by decide, by decide, by decide⟩
  have hflat : gpbpFlat ['/', 'a'] [(['/', 'a', '/', 'a', 'b'], some ['v'])] =
      [(['b'], some ['v'])] := by decide
  have hres : get_parameters_by_path ['/', 'a'] true true []
      [(['/', 'a', '/', 'a', 'b'], some ['v'])] =
      .ok (.tree (parse_parameters [(['b'], some ['v'])])) := by
    show Except.ok (GpbpResult.tree (parse_parameters (gpbpFlat _ _))) = _
    rw [hflat]
  have h0 : parse_parameters [(['b'], some ['v'])] =
      deep_merge (.dict []) (tree_dict (splitOn '/' ['b']) (some ['v'])) := by
    show List.foldl
        (fun (parsed : Val) (kv : Str × Option Str) =>
          deep_merge parsed (tree_dict (splitOn '/' kv.1) kv.2))
        (.dict []) [(['b'], some ['v'])] = _
    rw [List.foldl_cons, List.foldl_nil]
  rw [hres, h0, (by decide : splitOn '/' ['b'] = [['b']])]
  simp only [tree_dict, valOfOpt]
  rw [deep_merge_empty_single]

/-- Claim C10, amended: with `recursive=True, nested=True`, a base path that
does not end in the separator and does not recur inside the remainder of
any entry name (without this proviso the leading separator can be consumed
by replace-all, see the counterexample), and a non-empty response whose
entry names all extend the base path by the separator, the returned tree
has exactly one top-level key, the empty string: the nested branch applies
no leading-separator stripping, so each suffix splits into segments
beginning with the empty segment. -/
theorem claim10_empty_top_key (p : Str) (entries : List (Str × Option Str))
    (_hpLast : p.getLast? ≠ some '/')
    (hne : entries ≠ [])
    (hform : ∀ e ∈ entries, ∃ s, e.1 = p ++ '/' :: s ∧ replaceAll p ('/' :: s) = '/' :: s) :
    ∃ t, get_parameters_by_path p true true [] entries =
      .ok (.tree (.dict [(([] : Str), t)])) := by
  have hrun : get_parameters_by_path p true true [] entries =
      .ok (.tree (parse_parameters (gpbpFlat p entries))) := rfl
  have hkeys := gpbpFlat_keys_slash p entries hform
  have hflatne : gpbpFlat p entries ≠ [] := gpbpFlat_ne_nil p entries hne
  rcases hflat : gpbpFlat p entries with _ | ⟨kv0, rest⟩
  · exact absurd hflat hflatne
  · obtain ⟨s0, hs0⟩ := hkeys kv0 (by rw [hflat]; simp)
    have hfirst : deep_merge (.dict []) (tree_dict (splitOn '/' kv0.1) kv0.2) =
        .dict [(([] : Str), tree_dict (splitOn '/' s0) kv0.2)] := by
      rw [hs0, splitOn_slash_cons]
      simp only [tree_dict]
      rw [deep_merge_empty_single]
    obtain ⟨Y, hY⟩ := parse_fold_empty_key rest
      (fun kv2 h2 => hkeys kv2 (by rw [hflat]; simp [h2]))
      (tree_dict (splitOn '/' s0) kv0.2)
    refine ⟨Y, ?_⟩
    rw [hrun, hflat]
    simp only [parse_parameters, List.foldl_cons]
    rw [hfirst, hY]

/-- Witness for claim C10: base `/bar` (no trailing separator), entries
`/bar/a/x` and `/bar/b`; the tree's only top-level key is the empty
string. -/
theorem claim10_witness :
    ∃ t, get_parameters_by_path ['/', 'b', 'a', 'r'] true true []
        [(['/', 'b', 'a', 'r', '/', 'a', '/', 'x'], some ['1']),
         (['/', 'b', 'a', 'r', '/', 'b'], some ['2'])] =
      .ok (.tree (.dict [(([] : Str), t)])) :=
  claim10_empty_top_key ['/', 'b', 'a', 'r']
    [(['/', 'b', 'a', 'r', '/', 'a', '/', 'x'], some ['1']),
     (['/', 'b', 'a', 'r', '/', 'b'], some ['2'])]
    (by decide) (by decide)
    (fun e he => by
      rcases List.mem_cons.1 he with h | h
      · rw [h]
        exact ⟨['a', '/', 'x'], by decide, by decide⟩
      · rw [List.mem_singleton.1 h]
        exact ⟨['b'], by decide, by decide⟩)

end Ssm
